import Mathlib

/-!
# Verification of the document-evaluator scoring pipeline

Shallow embedding of `src/index.ts` (Muktar16/document-evaluator).
Documents are modelled as `List Char` (JavaScript strings; all indices are
character counts). Scores are modelled as rationals `ℚ` (the JavaScript
code computes with IEEE doubles, but every score is a small dyadic/decimal
combination of 0.5, 0.1 and keyword fractions; ℚ is the intended exact
semantics). JavaScript case conversion is modelled on the basic-latin
letters, which covers every character the rubric and the header patterns
use.
-/

namespace DocEval

/-- The code points of JavaScript's `\s` character class (ECMA-262
WhiteSpace ∪ LineTerminator): tab, LF, VT, FF, CR, space, NBSP, and the
Unicode space separators. -/
def isSpaceCode (n : ℕ) : Bool :=
  decide (n = 32 ∨ n = 9 ∨ n = 10 ∨ n = 11 ∨ n = 12 ∨ n = 13 ∨
    n = 0xa0 ∨ n = 0x1680 ∨ (0x2000 ≤ n ∧ n ≤ 0x200a) ∨
    n = 0x2028 ∨ n = 0x2029 ∨ n = 0x202f ∨ n = 0x205f ∨ n = 0x3000 ∨ n = 0xfeff)

/-- Does a character belong to JavaScript's `\s` class? -/
def isJsSpace (c : Char) : Bool := isSpaceCode c.toNat

/-- JavaScript's `\d` character class: the ASCII digits `0`–`9`. -/
def isDigitC (c : Char) : Bool := decide (48 ≤ c.toNat ∧ c.toNat ≤ 57)

/-- `String.prototype.split(/\s+/)` followed by filtering out empty strings
yields exactly the maximal runs of non-whitespace characters, in order.
`acc` holds the (reversed) current run. -/
def wordsOfAux : List Char → List Char → List (List Char)
  | [], acc => if acc = [] then [] else [acc.reverse]
  | c :: rest, acc =>
    if isJsSpace c then
      (if acc = [] then wordsOfAux rest [] else acc.reverse :: wordsOfAux rest [])
    else wordsOfAux rest (c :: acc)

/-- The non-empty whitespace-separated tokens of a text, as in
`content.split(/\s+/).filter((word) => word.length > 0)`. -/
def wordsOf (s : List Char) : List (List Char) := wordsOfAux s []

/-- `words.length` for the token list above. -/
def countWords (s : List Char) : ℕ := (wordsOf s).length

/-- Modelled from the spec: `extractKeywords` wraps the external
`keyword-extractor` npm library (not part of this repository); per the spec
it "extracts normalized keyword tokens from the section body (deduplicated,
lowercased)". We model it as the whitespace-split tokens of the text,
lowercased, with duplicates removed. -/
def extractKeywords (text : List Char) : List (List Char) :=
  ((wordsOf text).map (fun w => w.map Char.toLower)).dedup

/-- Case-insensitive literal match of `pat` as a prefix of `s` (the `i`
regex flag, modelled by comparing lower-cased characters). -/
def matchPrefixCI : List Char → List Char → Bool
  | [], _ => true
  | _ :: _, [] => false
  | p :: ps, c :: cs => (p.toLower = c.toLower) && matchPrefixCI ps cs

/-- Greedy search for the `\s+` part of the header regex followed by the
section name: try the longest whitespace run first (`k`, counted down),
exactly as a backtracking regex engine does, and return the number of
whitespace characters consumed when the name matches right after them. -/
def greedySpaceName (name : List Char) (s : List Char) : ℕ → Option ℕ
  | 0 => none
  | k + 1 =>
    if matchPrefixCI name (s.drop (k + 1)) then some (k + 1)
    else greedySpaceName name s k

/-- Does the regex `## \d+\.\s+<name>` (flag `i`) match at the start of `s`?
Returns the length of the match (`sectionMatch[0].length`). `\d+` must be
the maximal digit run (the following `.` is not a digit, so no shorter run
can succeed), and `\s+` is resolved greedily by `greedySpaceName`. -/
def matchHeaderAt (name : List Char) (s : List Char) : Option ℕ :=
  match s with
  | a :: b :: c :: rest =>
    if a = '#' && b = '#' && c = ' ' then
      let ds := rest.takeWhile isDigitC
      if ds = [] then none
      else
        match rest.drop ds.length with
        | d :: rest2 =>
          if d = '.' then
            let ws := rest2.takeWhile isJsSpace
            match greedySpaceName name rest2 ws.length with
            | some k => some (3 + ds.length + 1 + k + name.length)
            | none => none
          else none
        | [] => none
    else none
  | _ => none

/-- Leftmost match of the header regex in a text: `content.match(sectionRegex)`
returns the first position (and match length) at which the pattern matches.
`i` is the absolute index of the current suffix. -/
def findHeaderAux (name : List Char) : List Char → ℕ → Option (ℕ × ℕ)
  | s, i =>
    match matchHeaderAt name s with
    | some len => some (i, len)
    | none =>
      match s with
      | [] => none
      | _ :: rest => findHeaderAux name rest (i + 1)

/-- First match of `## \d+\.\s+<name>` (case-insensitive) in `content`:
index of the match and its length. -/
def findHeader (name : List Char) (content : List Char) : Option (ℕ × ℕ) :=
  findHeaderAux name content 0

/-- Does the regex `## \d+\.\s+` match at the start of `s`? Only the match
index is ever used, so we return a `Bool`. -/
def matchNextHeaderAt (s : List Char) : Bool :=
  match s with
  | a :: b :: c :: rest =>
    if a = '#' && b = '#' && c = ' ' then
      let ds := rest.takeWhile isDigitC
      if ds = [] then false
      else
        match rest.drop ds.length with
        | d :: rest2 =>
          if d = '.' then
            match rest2 with
            | e :: _ => isJsSpace e
            | [] => false
          else false
        | [] => false
    else false
  | _ => false

/-- Leftmost index at which `/## \d+\.\s+/` matches in `s`
(`sectionContent.slice(...).match(/## \d+\.\s+/)` and its `.index`). -/
def findNextHeaderAux : List Char → ℕ → Option ℕ
  | s, i =>
    if matchNextHeaderAt s then some i
    else
      match s with
      | [] => none
      | _ :: rest => findNextHeaderAux rest (i + 1)

/-- Index of the first match of `/## \d+\.\s+/` in `s`, if any. -/
def findNextHeader (s : List Char) : Option ℕ := findNextHeaderAux s 0

/-- A rubric section: `interface Section` of the source. -/
structure Sec where
  name : List Char
  requiredKeywords : List (List Char)
  minWordCount : ℕ
deriving Repr, DecidableEq

/-- The body text `sectionText` scored for a section, when its header is
found: the slice of `content` from the header match up to the next
`/## \d+\.\s+/` match (or to the end of the document). -/
def sectionBody (name : List Char) (content : List Char) : Option (List Char) :=
  match findHeader name content with
  | none => none
  | some (idx, len) =>
    let sectionContent := content.drop idx
    match findNextHeader (sectionContent.drop len) with
    | some nidx => some (sectionContent.take (nidx + len))
    | none => some sectionContent

/-- Result record of `evaluateSection`. -/
structure SectionResult where
  score : ℚ
  feedback : String
  missingKeywords : List (List Char)
deriving Repr, DecidableEq

/-- The scoring that `evaluateSection` performs on a section body once the
slice `sectionText` has been determined: word-count half plus keyword
fraction half, with the feedback strings built exactly as in the source. -/
def scoreBody (sectionText : List Char) (sec : Sec) : SectionResult :=
  let words := wordsOf sectionText
  let keywordsFound := extractKeywords sectionText
  let missingKeywords :=
    sec.requiredKeywords.filter
      (fun keyword => !(keywordsFound.contains (keyword.map Char.toLower)))
  let wcPart : ℚ := if sec.minWordCount ≤ words.length then 1/2 else 0
  let wcFeedback : String :=
    if sec.minWordCount ≤ words.length then
      "Word count requirement met (" ++ toString words.length ++ " words). "
    else
      "Word count below minimum (" ++ toString words.length ++ "/" ++
        toString sec.minWordCount ++ "). "
  let keywordScore : ℚ :=
    1 - (missingKeywords.length : ℚ) / (sec.requiredKeywords.length : ℚ)
  let kwFeedback : String :=
    if missingKeywords.length = 0 then "All required keywords found. "
    else
      "Missing keywords: " ++
        String.intercalate ", " (missingKeywords.map String.mk) ++ ". "
  { score := wcPart + keywordScore * (1/2)
    feedback := wcFeedback ++ kwFeedback
    missingKeywords := missingKeywords }

/-- `evaluateSection(content, section)`: locate the section by its header
regex; if absent return score 0 with all keywords missing, otherwise score
the slice from the header to the next header (or the end). -/
def evaluateSection (content : List Char) (sec : Sec) : SectionResult :=
  match sectionBody sec.name content with
  | none =>
    { score := 0
      feedback := "Section \"" ++ String.mk sec.name ++ "\" is missing."
      missingKeywords := sec.requiredKeywords }
  | some sectionText => scoreBody sectionText sec

/-- A rubric: `interface DocumentType` of the source. -/
structure DocumentType where
  name : String
  sections : List Sec
  overallMinWordCount : ℕ
deriving Repr, DecidableEq

/-- Result record of `evaluateDocument`. The two JavaScript objects keyed by
section name are modelled as association lists in rubric order (every rubric
section is visited exactly once by the `forEach` loop). -/
structure EvaluationResult where
  documentType : String
  overallScore : ℚ
  sectionScores : List (List Char × ℚ)
  feedback : List String
  missingKeywords : List (List Char × List (List Char))
  wordCount : ℕ
deriving Repr, DecidableEq

/-- `evaluateDocument(content, documentType)`: the `forEach` loop evaluates
each section independently, accumulating per-section scores, feedback and
missing-keyword lists, and summing the scores; the sum is divided by the
number of sections, a 0.1 bonus is added when the whole document meets the
overall minimum word count, and the result is capped at 1 and scaled to a
percentage. -/
def evaluateDocument (content : List Char) (documentType : DocumentType) :
    EvaluationResult :=
  let words := wordsOf content
  let results := documentType.sections.map (fun sec => (sec, evaluateSection content sec))
  let sectionScores := results.map (fun r => (r.1.name, r.2.score))
  let sectionFeedback :=
    results.map (fun r => String.mk r.1.name ++ ": " ++ r.2.feedback)
  let missingKeywords :=
    (results.filter (fun r => !r.2.missingKeywords.isEmpty)).map
      (fun r => (r.1.name, r.2.missingKeywords))
  let summed : ℚ := (results.map (fun r => r.2.score)).sum
  let averaged : ℚ := summed / (documentType.sections.length : ℚ)
  let bonused : ℚ :=
    if documentType.overallMinWordCount ≤ words.length then averaged + 1/10
    else averaged
  let bonusFeedback : String :=
    if documentType.overallMinWordCount ≤ words.length then
      "Overall word count requirement met (" ++ toString words.length ++ " words)."
    else
      "Overall word count below minimum (" ++ toString words.length ++ "/" ++
        toString documentType.overallMinWordCount ++ ")."
  { documentType := documentType.name
    overallScore := min bonused 1 * 100
    sectionScores := sectionScores
    feedback := sectionFeedback ++ [bonusFeedback]
    missingKeywords := missingKeywords
    wordCount := words.length }

/-- The hardcoded rubric `projectOverviewType` of the source. -/
def projectOverviewType : DocumentType :=
  { name := "Project Overview"
    sections :=
      [ { name := "Introduction".data
          requiredKeywords := ["purpose".data, "scope".data, "objectives".data]
          minWordCount := 100 }
      , { name := "Key Features".data
          requiredKeywords := ["functionality".data, "benefits".data, "unique".data]
          minWordCount := 150 }
      , { name := "Target User".data
          requiredKeywords := ["audience".data, "user".data, "demographic".data]
          minWordCount := 75 }
      , { name := "User Access Levels".data
          requiredKeywords := ["roles".data, "permissions".data, "admin".data]
          minWordCount := 100 }
      , { name := "Purpose".data
          requiredKeywords := ["goal".data, "aim".data, "objective".data]
          minWordCount := 75 }
      , { name := "Technology Stack".data
          requiredKeywords := ["frontend".data, "backend".data, "database".data]
          minWordCount := 100 }
      , { name := "Conclusion".data
          requiredKeywords := ["summary".data, "future".data, "next steps".data]
          minWordCount := 75 } ]
    overallMinWordCount := 500 }

/-- A section "is present with at least its minimum word count and all of
its required keywords found": its header is located in the document, the
resulting body meets the section's minimum word count, and every required
keyword (lowercased) is among the keywords extracted from the body. -/
def sectionMeets (content : List Char) (sec : Sec) : Bool :=
  match sectionBody sec.name content with
  | none => false
  | some body =>
    decide (sec.minWordCount ≤ countWords body) &&
      sec.requiredKeywords.all
        (fun k => (extractKeywords body).contains (k.map Char.toLower))

/-- The division `overallScore /= documentType.sections.length` performed by
`evaluateDocument` has a non-zero divisor. -/
def averageDefined (documentType : DocumentType) : Prop :=
  (documentType.sections.length : ℚ) ≠ 0

/-- Concrete sample section used to instantiate the theorems below. -/
def wIntroSec : Sec := ⟨"Intro".data, ["alpha".data], 2⟩

/-- Concrete sample document (one matching header, five words). -/
def wDoc : List Char := "## 1. Intro alpha beta".data

/-- Concrete sample rubric with a single section. -/
def wRubric : DocumentType := ⟨"T", [wIntroSec], 3⟩

/-- Concrete sample document containing two numbered section headers. -/
def wTwoSecDoc : List Char := "## 1. Intro x ## 2. Next y".data

/-- Concrete sample section requiring exactly five words. -/
def wFiveSec : Sec := ⟨"Intro".data, ["alpha".data], 5⟩

/-- The `Conclusion` section of the hardcoded rubric, whose required
keyword `"next steps"` contains a space. -/
def wConclusionSec : Sec :=
  ⟨"Conclusion".data, ["summary".data, "future".data, "next steps".data], 75⟩

/-! ## Character-level lemmas -/

theorem char_eq_iff_toNat (c d : Char) : c = d ↔ c.toNat = d.toNat := by
  constructor
  · intro h; rw [h]
  · intro h
    apply Char.ext
    exact UInt32.toNat.inj h

theorem toNat_ofNat_lt {n : ℕ} (h : n < 55296) : (Char.ofNat n).toNat = n := by
  have hv : n.isValidChar := Or.inl h
  rw [Char.ofNat, dif_pos hv]
  rfl

theorem toNat_toLower (c : Char) : (Char.toLower c).toNat =
    if 65 ≤ c.toNat ∧ c.toNat ≤ 90 then c.toNat + 32 else c.toNat := by
  simp only [Char.toLower]
  split
  · rename_i h
    rw [toNat_ofNat_lt (by omega)]
  · rfl

theorem toNat_toUpper (c : Char) : (Char.toUpper c).toNat =
    if 97 ≤ c.toNat ∧ c.toNat ≤ 122 then c.toNat - 32 else c.toNat := by
  simp only [Char.toUpper]
  split
  · rename_i h
    rw [toNat_ofNat_lt (by omega)]
  · rfl

theorem toLower_toUpper (c : Char) : c.toUpper.toLower = c.toLower := by
  rw [char_eq_iff_toNat, toNat_toLower, toNat_toLower, toNat_toUpper]
  split_ifs <;> omega

theorem isJsSpace_toUpper (c : Char) : isJsSpace c.toUpper = isJsSpace c := by
  rw [isJsSpace, isJsSpace, toNat_toUpper]
  split_ifs with h
  · simp only [isSpaceCode, decide_eq_decide]
    omega
  · rfl

theorem isJsSpace_toLower (c : Char) : isJsSpace c.toLower = isJsSpace c := by
  rw [isJsSpace, isJsSpace, toNat_toLower]
  split_ifs with h
  · simp only [isSpaceCode, decide_eq_decide]
    omega
  · rfl

theorem isDigitC_toUpper (c : Char) : isDigitC c.toUpper = isDigitC c := by
  rw [isDigitC, isDigitC, toNat_toUpper]
  split_ifs with h
  · simp only [decide_eq_decide]
    omega
  · rfl

theorem toUpper_eq_lit (x lit : Char)
    (hd : ¬(65 ≤ lit.toNat ∧ lit.toNat ≤ 90) ∧ ¬(97 ≤ lit.toNat ∧ lit.toNat ≤ 122)) :
    x.toUpper = lit ↔ x = lit := by
  rw [char_eq_iff_toNat, char_eq_iff_toNat, toNat_toUpper]
  split_ifs with h <;> omega

theorem decide_toUpper_eq (x d : Char)
    (hd : ¬(65 ≤ d.toNat ∧ d.toNat ≤ 90) ∧ ¬(97 ≤ d.toNat ∧ d.toNat ≤ 122)) :
    decide (x.toUpper = d) = decide (x = d) := by
  rw [decide_eq_decide, char_eq_iff_toNat, char_eq_iff_toNat, toNat_toUpper]
  split_ifs with h <;> omega

/-! ## The aggregation formula and the 100-point cap -/

/-- The closed form of `evaluateDocument`'s aggregation: average of the
per-section scores, plus the 0.1 overall-word-count bonus, capped at 1 and
scaled to a percentage. -/
theorem overallScore_core (content : List Char) (dt : DocumentType) :
    (evaluateDocument content dt).overallScore =
      min ((dt.sections.map (fun sec => (evaluateSection content sec).score)).sum /
            (dt.sections.length : ℚ) +
          (if dt.overallMinWordCount ≤ countWords content then (1 : ℚ)/10 else 0))
        1 * 100 := by
  simp only [evaluateDocument, countWords, List.map_map, Function.comp_def]
  split <;> simp

/-- C2: for every document and rubric, `evaluateDocument`'s `overallScore`
equals `min(average of all per-section scores + (0.1 if the document's
whitespace-split word count is at least the rubric's overall minimum word
count, else 0), 1) * 100`. -/
theorem overallScore_formula (content : List Char) (dt : DocumentType) :
    (evaluateDocument content dt).overallScore =
      min ((dt.sections.map (fun sec => (evaluateSection content sec).score)).sum /
            (dt.sections.length : ℚ) +
          (if dt.overallMinWordCount ≤ countWords content then (1 : ℚ)/10 else 0))
        1 * 100 :=
  overallScore_core content dt

/-- C8: for every document and rubric, the `overallScore` returned by
`evaluateDocument` never exceeds 100. -/
theorem overallScore_le_100 (content : List Char) (dt : DocumentType) :
    (evaluateDocument content dt).overallScore ≤ 100 := by
  have key : ∀ b : ℚ, min b 1 * 100 ≤ 100 := by
    intro b
    have h := min_le_right b (1 : ℚ)
    nlinarith
  simp only [evaluateDocument]
  exact key _

/-! ## Section scoring: formula, bounds, perfect score, absent section -/

theorem half_plus_keyword_bounds (m r : ℕ) (hm : m ≤ r) (w : ℚ)
    (hw : w = 0 ∨ w = 1/2) :
    0 ≤ w + (1 - (m : ℚ) / (r : ℚ)) * (1/2) ∧
      w + (1 - (m : ℚ) / (r : ℚ)) * (1/2) ≤ 1 := by
  rcases Nat.eq_zero_or_pos r with h0 | hpos
  · subst h0
    have hm0 : m = 0 := Nat.le_zero.mp hm
    subst hm0
    rcases hw with h | h <;> subst h <;> norm_num
  · have hrq : (0 : ℚ) < (r : ℚ) := by exact_mod_cast hpos
    have h1 : 0 ≤ (m : ℚ) / (r : ℚ) := by positivity
    have h2 : (m : ℚ) / (r : ℚ) ≤ 1 := by
      rw [div_le_one hrq]
      exact_mod_cast hm
    rcases hw with h | h <;> subst h <;> constructor <;> linarith

theorem scoreBody_score_bounds (body : List Char) (sec : Sec) :
    0 ≤ (scoreBody body sec).score ∧ (scoreBody body sec).score ≤ 1 := by
  simp only [scoreBody]
  exact half_plus_keyword_bounds _ _ (List.length_filter_le _ _) _
    (by split <;> simp)

theorem evaluateSection_score_bounds (content : List Char) (sec : Sec) :
    0 ≤ (evaluateSection content sec).score ∧
      (evaluateSection content sec).score ≤ 1 := by
  rw [evaluateSection]
  cases hsb : sectionBody sec.name content with
  | none => norm_num
  | some body => exact scoreBody_score_bounds body sec

/-- C3: for every document and section definition (with at least one
required keyword, so that the keyword fraction is a real division),
`evaluateSection`'s score equals (0.5 if the section body's whitespace-split
word count is at least the section minimum, else 0) plus
0.5 * (found keywords / required keywords), and the score always lies in
[0, 1]. -/
theorem keyword_fraction_eq (w : ℚ) (f m r : ℕ) (hr : r ≠ 0) (hfm : r = f + m) :
    w + (1 - (m : ℚ) / (r : ℚ)) * (1/2) = w + 1/2 * ((f : ℚ) / (r : ℚ)) := by
  have hrq : (r : ℚ) ≠ 0 := Nat.cast_ne_zero.mpr hr
  have hf : (f : ℚ) = (r : ℚ) - (m : ℚ) := by
    have hc : (r : ℚ) = (f : ℚ) + (m : ℚ) := by exact_mod_cast hfm
    linarith
  rw [hf]
  field_simp
  ring

theorem evaluateSection_score_formula (content : List Char) (sec : Sec)
    (hk : 0 < sec.requiredKeywords.length) :
    (∀ body, sectionBody sec.name content = some body →
      (evaluateSection content sec).score =
        (if sec.minWordCount ≤ countWords body then (1 : ℚ)/2 else 0) +
          1/2 * (((sec.requiredKeywords.filter
              (fun k => (extractKeywords body).contains (k.map Char.toLower))).length : ℚ) /
            (sec.requiredKeywords.length : ℚ))) ∧
    0 ≤ (evaluateSection content sec).score ∧
      (evaluateSection content sec).score ≤ 1 := by
  refine ⟨?_, evaluateSection_score_bounds content sec⟩
  intro body hb
  rw [evaluateSection, hb]
  simp only [scoreBody, countWords]
  exact keyword_fraction_eq _ _ _ _ (Nat.pos_iff_ne_zero.mp hk)
    (List.length_eq_length_filter_add
      (fun k => (extractKeywords body).contains (k.map Char.toLower)))

/-- The missing-keyword list of a scored body is empty when every required
keyword (lowercased) occurs among the extracted keywords. -/
theorem scoreBody_missing_nil (body : List Char) (sec : Sec)
    (hfound : ∀ k ∈ sec.requiredKeywords,
      (k.map Char.toLower) ∈ extractKeywords body) :
    (scoreBody body sec).missingKeywords = [] := by
  simp only [scoreBody]
  rw [List.filter_eq_nil_iff]
  intro k hk
  simp only [List.contains, List.elem_eq_mem, Bool.not_eq_true', decide_eq_false_iff_not,
    Decidable.not_not]
  exact hfound k hk

/-- C5: a section present with a body of exactly its minimum word count and
every required keyword found scores 1.0. (The keyword list is required to
be non-empty, as it is for every rubric section; the keyword fraction is a
real division.) -/
theorem evaluateSection_perfect (content : List Char) (sec : Sec) (body : List Char)
    (hk : 0 < sec.requiredKeywords.length)
    (hb : sectionBody sec.name content = some body)
    (hwc : countWords body = sec.minWordCount)
    (hfound : ∀ k ∈ sec.requiredKeywords,
      (k.map Char.toLower) ∈ extractKeywords body) :
    (evaluateSection content sec).score = 1 := by
  have hmiss := scoreBody_missing_nil body sec hfound
  simp only [scoreBody] at hmiss
  rw [evaluateSection, hb]
  simp only [scoreBody, hmiss, countWords] at hmiss ⊢
  rw [countWords] at hwc
  rw [if_pos (le_of_eq hwc.symm), List.length_nil]
  norm_num

/-- If the header pattern matches at no position of `s`, the scan of
`findHeaderAux` returns `none`. -/
theorem findHeaderAux_eq_none (name : List Char) :
    ∀ (s : List Char) (i : ℕ),
      (∀ j, j ≤ s.length → matchHeaderAt name (s.drop j) = none) →
      findHeaderAux name s i = none := by
  intro s
  induction s with
  | nil =>
    intro i h
    have h0 := h 0 (by simp)
    rw [List.drop_zero] at h0
    rw [findHeaderAux, h0]
  | cons c rest ih =>
    intro i h
    have h0 := h 0 (by simp)
    rw [List.drop_zero] at h0
    rw [findHeaderAux, h0]
    exact ih (i + 1) (fun j hj => h (j + 1) (by simpa using hj))

/-- C6: when no header in the document matches the section's header
pattern, `evaluateSection` returns score 0 and reports the section's full
`requiredKeywords` list as missing. -/
theorem evaluateSection_absent (content : List Char) (sec : Sec)
    (h : ∀ j, j ≤ content.length → matchHeaderAt sec.name (content.drop j) = none) :
    (evaluateSection content sec).score = 0 ∧
      (evaluateSection content sec).missingKeywords = sec.requiredKeywords := by
  have hfh : findHeader sec.name content = none :=
    findHeaderAux_eq_none sec.name content 0 h
  rw [evaluateSection, sectionBody, hfh]
  exact ⟨rfl, rfl⟩

/-- A section satisfying `sectionMeets` scores exactly 1. -/
theorem score_eq_one_of_meets (content : List Char) (sec : Sec)
    (h : sectionMeets content sec = true) :
    (evaluateSection content sec).score = 1 := by
  cases hb : sectionBody sec.name content with
  | none =>
    rw [sectionMeets, hb] at h
    exact absurd h (by simp)
  | some body =>
    rw [sectionMeets, hb] at h
    simp only [Bool.and_eq_true, decide_eq_true_eq, List.all_eq_true] at h
    obtain ⟨hwc, hall⟩ := h
    have hmiss : (scoreBody body sec).missingKeywords = [] := by
      apply scoreBody_missing_nil
      intro k hk
      have := hall k hk
      simpa only [List.contains, List.elem_eq_mem, decide_eq_true_eq] using this
    simp only [scoreBody] at hmiss
    rw [evaluateSection, hb]
    simp only [scoreBody, hmiss, List.length_nil]
    rw [countWords] at hwc
    rw [if_pos hwc]
    norm_num

theorem sum_map_ones {α : Type} (l : List α) (f : α → ℚ)
    (h : ∀ x ∈ l, f x = 1) : (l.map f).sum = l.length := by
  induction l with
  | nil => simp
  | cons a t ih =>
    have ha := h a (by simp)
    have ht := ih (fun x hx => h x (by simp [hx]))
    simp only [List.map_cons, List.sum_cons, ha, ht, List.length_cons]
    push_cast
    ring

/-- C1: a document in which every rubric section is present with at least
its minimum word count and all required keywords found, and whose total
word count meets the document-level minimum, receives `overallScore = 100`
(for a rubric with at least one section, so the average is well defined). -/
theorem evaluateDocument_full_marks (content : List Char) (dt : DocumentType)
    (hne : dt.sections ≠ [])
    (hmeets : ∀ sec ∈ dt.sections, sectionMeets content sec = true)
    (hwc : dt.overallMinWordCount ≤ countWords content) :
    (evaluateDocument content dt).overallScore = 100 := by
  rw [overallScore_core content dt]
  have hsum : (dt.sections.map (fun sec => (evaluateSection content sec).score)).sum =
      (dt.sections.length : ℚ) :=
    sum_map_ones _ _ (fun sec hs => score_eq_one_of_meets content sec (hmeets sec hs))
  have hlen : ((dt.sections.length : ℚ)) ≠ 0 :=
    Nat.cast_ne_zero.mpr (fun h0 => hne (List.length_eq_zero.mp h0))
  rw [hsum, if_pos hwc, div_self hlen]
  rw [min_eq_right (by norm_num)]
  norm_num

/-- C10: `evaluateDocument` divides the summed section scores by the number
of rubric sections with no guard for an empty section list. With at least
one section the division is well defined and the overall score lies in
[0, 100]; with zero sections the divisor of the average is zero (in
JavaScript the division yields `NaN`). -/
theorem evaluateDocument_division_guard (content : List Char) (dt : DocumentType) :
    (dt.sections ≠ [] →
      0 ≤ (evaluateDocument content dt).overallScore ∧
        (evaluateDocument content dt).overallScore ≤ 100) ∧
    (dt.sections = [] → ¬ averageDefined dt) := by
  constructor
  · intro hne
    constructor
    · rw [overallScore_core]
      have hsum : 0 ≤ (dt.sections.map (fun sec => (evaluateSection content sec).score)).sum := by
        apply List.sum_nonneg
        intro x hx
        obtain ⟨sec, _, rfl⟩ := List.mem_map.mp hx
        exact (evaluateSection_score_bounds content sec).1
      have hdiv : 0 ≤ (dt.sections.map (fun sec => (evaluateSection content sec).score)).sum /
          (dt.sections.length : ℚ) := by positivity
      have hbonus : (0 : ℚ) ≤
          (if dt.overallMinWordCount ≤ countWords content then (1 : ℚ)/10 else 0) := by
        split <;> norm_num
      have hmin : (0 : ℚ) ≤ min ((dt.sections.map (fun sec => (evaluateSection content sec).score)).sum /
          (dt.sections.length : ℚ) +
          (if dt.overallMinWordCount ≤ countWords content then (1 : ℚ)/10 else 0)) 1 :=
        le_min (by linarith) (by norm_num)
      linarith
    · have key : ∀ b : ℚ, min b 1 * 100 ≤ 100 := by
        intro b
        have hb := min_le_right b (1 : ℚ)
        nlinarith
      simp only [evaluateDocument]
      exact key _
  · intro h0
    rw [averageDefined, h0]
    simp

/-! ## Extracted keywords are single whitespace-free tokens -/

theorem wordsOfAux_no_space :
    ∀ (s acc : List Char), (∀ c ∈ acc, isJsSpace c = false) →
      ∀ w ∈ wordsOfAux s acc, ∀ c ∈ w, isJsSpace c = false := by
  intro s
  induction s with
  | nil =>
    intro acc hacc w hw c hc
    rw [wordsOfAux] at hw
    split at hw
    · simp at hw
    · simp only [List.mem_singleton] at hw
      subst hw
      exact hacc c (List.mem_reverse.mp hc)
  | cons a rest ih =>
    intro acc hacc w hw c hc
    rw [wordsOfAux] at hw
    split at hw
    · split at hw
      · exact ih [] (by simp) w hw c hc
      · rcases List.mem_cons.mp hw with h | h
        · subst h
          exact hacc c (List.mem_reverse.mp hc)
        · exact ih [] (by simp) w h c hc
    · rename_i hna
      refine ih (a :: acc) ?_ w hw c hc
      intro d hd
      rcases List.mem_cons.mp hd with h | h
      · subst h
        exact Bool.not_eq_true _ ▸ hna
      · exact hacc d h

theorem wordsOf_no_space (s : List Char) :
    ∀ w ∈ wordsOf s, ∀ c ∈ w, isJsSpace c = false :=
  wordsOfAux_no_space s [] (by simp)

theorem extractKeywords_no_space (t : List Char) :
    ∀ w ∈ extractKeywords t, ∀ c ∈ w, isJsSpace c = false := by
  intro w hw c hc
  rw [extractKeywords] at hw
  have hw' := List.mem_dedup.mp hw
  obtain ⟨w0, hw0, rfl⟩ := List.mem_map.mp hw'
  obtain ⟨c0, hc0, rfl⟩ := List.mem_map.mp hc
  rw [isJsSpace_toLower]
  exact wordsOf_no_space t w0 hw0 c0 hc0

theorem contribution_lt_half (m r : ℕ) (hm : 0 < m) (hr : 0 < r) :
    (1 - (m : ℚ) / (r : ℚ)) * (1/2) < 1/2 := by
  have h : 0 < (m : ℚ) / (r : ℚ) :=
    div_pos (by exact_mod_cast hm) (by exact_mod_cast hr)
  linarith

/-- C9: a required keyword containing a whitespace character is never found
(extracted keyword tokens are single whitespace-free words): it always ends
up in the section's `missingKeywords`, and the section's keyword
contribution `(1 - missing/required) * 0.5` is strictly below 0.5. -/
theorem whitespace_keyword_never_found (content : List Char) (sec : Sec)
    (k : List Char) (hk : k ∈ sec.requiredKeywords)
    (hws : ∃ c ∈ k, isJsSpace c = true) :
    k ∈ (evaluateSection content sec).missingKeywords ∧
      (1 - (((evaluateSection content sec).missingKeywords.length : ℚ) /
          (sec.requiredKeywords.length : ℚ))) * (1/2) < 1/2 := by
  obtain ⟨c0, hc0mem, hc0⟩ := hws
  have hrpos : 0 < sec.requiredKeywords.length := List.length_pos.mpr (by
    intro h; rw [h] at hk; simp at hk)
  have hnotin : ∀ body, (k.map Char.toLower) ∉ extractKeywords body := by
    intro body hmem
    have := extractKeywords_no_space body _ hmem c0.toLower
      (List.mem_map_of_mem _ hc0mem)
    rw [isJsSpace_toLower, hc0] at this
    exact absurd this (by simp)
  cases hb : sectionBody sec.name content with
  | none =>
    rw [evaluateSection, hb]
    refine ⟨hk, ?_⟩
    rw [div_self (by exact_mod_cast Nat.pos_iff_ne_zero.mp hrpos)]
    norm_num
  | some body =>
    rw [evaluateSection, hb]
    simp only [scoreBody]
    have hmemf : k ∈ sec.requiredKeywords.filter
        (fun keyword => !((extractKeywords body).contains (keyword.map Char.toLower))) := by
      refine List.mem_filter.mpr ⟨hk, ?_⟩
      simp only [List.contains, List.elem_eq_mem, Bool.not_eq_true', decide_eq_false_iff_not]
      exact hnotin body
    refine ⟨hmemf, ?_⟩
    exact contribution_lt_half _ _ (List.length_pos.mpr (by
      intro h; rw [h] at hmemf; simp at hmemf)) hrpos

/-! ## Correctness of the leftmost-match scans -/

theorem findHeaderAux_some (name : List Char) :
    ∀ (s : List Char) (i idx len : ℕ),
      findHeaderAux name s i = some (idx, len) →
      i ≤ idx ∧ matchHeaderAt name (s.drop (idx - i)) = some len ∧
        ∀ j, j < idx - i → matchHeaderAt name (s.drop j) = none := by
  intro s
  induction s with
  | nil =>
    intro i idx len h
    rw [findHeaderAux] at h
    have hm : matchHeaderAt name ([] : List Char) = none := rfl
    rw [hm] at h
    exact absurd h (by simp)
  | cons a rest ih =>
    intro i idx len h
    rw [findHeaderAux] at h
    cases hm : matchHeaderAt name (a :: rest) with
    | some l =>
      rw [hm] at h
      simp only [Option.some.injEq, Prod.mk.injEq] at h
      obtain ⟨h1, h2⟩ := h
      subst h1
      subst h2
      refine ⟨le_refl _, ?_, ?_⟩
      · simpa using hm
      · intro j hj
        omega
    | none =>
      rw [hm] at h
      obtain ⟨hle, hmatch, hnone⟩ := ih (i + 1) idx len h
      refine ⟨by omega, ?_, ?_⟩
      · have hd : (a :: rest).drop (idx - i) = rest.drop (idx - (i + 1)) := by
          have h1 : idx - i = (idx - (i + 1)) + 1 := by omega
          rw [h1, List.drop_succ_cons]
        rw [hd]
        exact hmatch
      · intro j hj
        cases j with
        | zero => simpa using hm
        | succ j' =>
          rw [List.drop_succ_cons]
          exact hnone j' (by omega)

theorem findHeaderAux_none (name : List Char) :
    ∀ (s : List Char) (i : ℕ), findHeaderAux name s i = none →
      ∀ j, matchHeaderAt name (s.drop j) = none := by
  intro s
  induction s with
  | nil =>
    intro i _ j
    rw [List.drop_nil]
    rfl
  | cons a rest ih =>
    intro i h j
    rw [findHeaderAux] at h
    cases hm : matchHeaderAt name (a :: rest) with
    | some l =>
      rw [hm] at h
      exact absurd h (by simp)
    | none =>
      rw [hm] at h
      cases j with
      | zero => simpa using hm
      | succ j' =>
        rw [List.drop_succ_cons]
        exact ih (i + 1) h j'

theorem findNextHeaderAux_some :
    ∀ (s : List Char) (i n : ℕ), findNextHeaderAux s i = some n →
      i ≤ n ∧ matchNextHeaderAt (s.drop (n - i)) = true ∧
        ∀ m, m < n - i → matchNextHeaderAt (s.drop m) = false := by
  intro s
  induction s with
  | nil =>
    intro i n h
    rw [findNextHeaderAux] at h
    have hm : matchNextHeaderAt [] = false := rfl
    rw [hm] at h
    exact absurd h (by simp)
  | cons a rest ih =>
    intro i n h
    rw [findNextHeaderAux] at h
    cases hm : matchNextHeaderAt (a :: rest) with
    | true =>
      rw [hm] at h
      simp only [if_true, Option.some.injEq] at h
      subst h
      refine ⟨le_refl _, ?_, ?_⟩
      · simpa using hm
      · intro m hm'
        omega
    | false =>
      rw [hm] at h
      simp only [Bool.false_eq_true, if_false] at h
      obtain ⟨hle, hmatch, hnone⟩ := ih (i + 1) n h
      refine ⟨by omega, ?_, ?_⟩
      · have hd : (a :: rest).drop (n - i) = rest.drop (n - (i + 1)) := by
          have h1 : n - i = (n - (i + 1)) + 1 := by omega
          rw [h1, List.drop_succ_cons]
        rw [hd]
        exact hmatch
      · intro m hm'
        cases m with
        | zero => simpa using hm
        | succ m' =>
          rw [List.drop_succ_cons]
          exact hnone m' (by omega)

theorem findNextHeaderAux_none :
    ∀ (s : List Char) (i : ℕ), findNextHeaderAux s i = none →
      ∀ m, matchNextHeaderAt (s.drop m) = false := by
  intro s
  induction s with
  | nil =>
    intro i _ m
    rw [List.drop_nil]
    rfl
  | cons a rest ih =>
    intro i h m
    rw [findNextHeaderAux] at h
    cases hm : matchNextHeaderAt (a :: rest) with
    | true =>
      rw [hm] at h
      exact absurd h (by simp)
    | false =>
      rw [hm] at h
      simp only [Bool.false_eq_true, if_false] at h
      cases m with
      | zero => simpa using hm
      | succ m' =>
        rw [List.drop_succ_cons]
        exact ih (i + 1) h m'

/-- C4: when the section's header pattern `## <number>. <Section Name>`
matches somewhere in the document, `evaluateSection` scores exactly the
substring of the document from the (leftmost) header match up to the next
match of `## <number>. ` after it — or up to the end of the document when
no later header matches. -/
theorem evaluateSection_slicing (content : List Char) (sec : Sec) (j l : ℕ)
    (hj : matchHeaderAt sec.name (content.drop j) = some l) :
    ∃ idx len, findHeader sec.name content = some (idx, len) ∧
      matchHeaderAt sec.name (content.drop idx) = some len ∧
      (∀ j', j' < idx → matchHeaderAt sec.name (content.drop j') = none) ∧
      ((∃ n, findNextHeader ((content.drop idx).drop len) = some n ∧
          matchNextHeaderAt (((content.drop idx).drop len).drop n) = true ∧
          (∀ m, m < n → matchNextHeaderAt (((content.drop idx).drop len).drop m) = false) ∧
          evaluateSection content sec = scoreBody ((content.drop idx).take (n + len)) sec) ∨
        (findNextHeader ((content.drop idx).drop len) = none ∧
          (∀ m, matchNextHeaderAt (((content.drop idx).drop len).drop m) = false) ∧
          evaluateSection content sec = scoreBody (content.drop idx) sec)) := by
  cases hfh : findHeader sec.name content with
  | none =>
    have := findHeaderAux_none sec.name content 0 hfh j
    rw [this] at hj
    exact absurd hj (by simp)
  | some p =>
    obtain ⟨idx, len⟩ := p
    obtain ⟨-, hmatch, hnone⟩ := findHeaderAux_some sec.name content 0 idx len hfh
    rw [Nat.sub_zero] at hmatch hnone
    refine ⟨idx, len, rfl, hmatch, hnone, ?_⟩
    cases hnext : findNextHeader ((content.drop idx).drop len) with
    | some n =>
      left
      obtain ⟨-, hnm, hnn⟩ := findNextHeaderAux_some ((content.drop idx).drop len) 0 n hnext
      rw [Nat.sub_zero] at hnm hnn
      refine ⟨n, rfl, hnm, hnn, ?_⟩
      rw [evaluateSection, sectionBody, hfh]
      simp only [hnext]
    | none =>
      right
      refine ⟨rfl, findNextHeaderAux_none ((content.drop idx).drop len) 0 hnext, ?_⟩
      rw [evaluateSection, sectionBody, hfh]
      simp only [hnext]

/-! ## Case-insensitivity: upper-casing the document changes nothing -/

theorem matchPrefixCI_map_toUpper (name : List Char) :
    ∀ l : List Char, matchPrefixCI name (l.map Char.toUpper) = matchPrefixCI name l := by
  induction name with
  | nil => intro l; cases l <;> rfl
  | cons p ps ih =>
    intro l
    cases l with
    | nil => rfl
    | cons c cs =>
      simp only [List.map_cons, matchPrefixCI, toLower_toUpper, ih]

theorem greedySpaceName_map_toUpper (name s : List Char) :
    ∀ k : ℕ, greedySpaceName name (s.map Char.toUpper) k = greedySpaceName name s k := by
  intro k
  induction k with
  | zero => rfl
  | succ k ih =>
    rw [greedySpaceName, greedySpaceName, ← List.map_drop, matchPrefixCI_map_toUpper]
    rw [ih]

theorem takeWhile_isDigitC_map_toUpper (l : List Char) :
    (l.map Char.toUpper).takeWhile isDigitC = (l.takeWhile isDigitC).map Char.toUpper := by
  have h : (isDigitC ∘ Char.toUpper) = isDigitC := funext isDigitC_toUpper
  rw [List.takeWhile_map, h]

theorem takeWhile_isJsSpace_map_toUpper (l : List Char) :
    (l.map Char.toUpper).takeWhile isJsSpace = (l.takeWhile isJsSpace).map Char.toUpper := by
  have h : (isJsSpace ∘ Char.toUpper) = isJsSpace := funext isJsSpace_toUpper
  rw [List.takeWhile_map, h]

theorem matchHeaderAt_map_toUpper (name : List Char) (s : List Char) :
    matchHeaderAt name (s.map Char.toUpper) = matchHeaderAt name s := by
  match s with
  | [] => rfl
  | [a] => rfl
  | [a, b] => rfl
  | a :: b :: c :: rest =>
    simp only [List.map_cons, matchHeaderAt]
    rw [decide_toUpper_eq a '#' (by decide), decide_toUpper_eq b '#' (by decide),
      decide_toUpper_eq c ' ' (by decide)]
    split
    · rw [takeWhile_isDigitC_map_toUpper]
      simp only [List.map_eq_nil_iff, List.length_map, ← List.map_drop]
      split
      · rfl
      · cases hrem : rest.drop (rest.takeWhile isDigitC).length with
        | nil => simp [hrem]
        | cons d rest2 =>
          simp only [List.map_cons]
          simp only [toUpper_eq_lit d '.' (by decide)]
          split
          · rw [takeWhile_isJsSpace_map_toUpper, List.length_map,
              greedySpaceName_map_toUpper]
          · rfl
    · rfl

theorem matchNextHeaderAt_map_toUpper (s : List Char) :
    matchNextHeaderAt (s.map Char.toUpper) = matchNextHeaderAt s := by
  match s with
  | [] => rfl
  | [a] => rfl
  | [a, b] => rfl
  | a :: b :: c :: rest =>
    simp only [List.map_cons, matchNextHeaderAt]
    rw [decide_toUpper_eq a '#' (by decide), decide_toUpper_eq b '#' (by decide),
      decide_toUpper_eq c ' ' (by decide)]
    split
    · rw [takeWhile_isDigitC_map_toUpper]
      simp only [List.map_eq_nil_iff, List.length_map, ← List.map_drop]
      split
      · rfl
      · cases hrem : rest.drop (rest.takeWhile isDigitC).length with
        | nil => simp [hrem]
        | cons d rest2 =>
          simp only [List.map_cons]
          simp only [toUpper_eq_lit d '.' (by decide)]
          split
          · cases rest2 with
            | nil => rfl
            | cons e rest3 => simp only [List.map_cons, isJsSpace_toUpper]
          · rfl
    · rfl

theorem findHeaderAux_map_toUpper (name : List Char) :
    ∀ (s : List Char) (i : ℕ),
      findHeaderAux name (s.map Char.toUpper) i = findHeaderAux name s i := by
  intro s
  induction s with
  | nil => intro i; rfl
  | cons a rest ih =>
    intro i
    simp only [List.map_cons]
    rw [findHeaderAux, findHeaderAux]
    rw [show (Char.toUpper a :: List.map Char.toUpper rest) =
      (a :: rest).map Char.toUpper from rfl, matchHeaderAt_map_toUpper]
    cases hm : matchHeaderAt name (a :: rest) with
    | some l => rfl
    | none =>
      simp only [List.map_cons]
      exact ih (i + 1)

theorem findNextHeaderAux_map_toUpper :
    ∀ (s : List Char) (i : ℕ),
      findNextHeaderAux (s.map Char.toUpper) i = findNextHeaderAux s i := by
  intro s
  induction s with
  | nil => intro i; rfl
  | cons a rest ih =>
    intro i
    simp only [List.map_cons]
    rw [findNextHeaderAux, findNextHeaderAux]
    rw [show (Char.toUpper a :: List.map Char.toUpper rest) =
      (a :: rest).map Char.toUpper from rfl, matchNextHeaderAt_map_toUpper]
    cases hm : matchNextHeaderAt (a :: rest) with
    | true => rfl
    | false => exact ih (i + 1)

theorem wordsOfAux_map_toUpper :
    ∀ (s acc : List Char),
      wordsOfAux (s.map Char.toUpper) (acc.map Char.toUpper) =
        (wordsOfAux s acc).map (List.map Char.toUpper) := by
  intro s
  induction s with
  | nil =>
    intro acc
    simp only [List.map_nil]
    rw [wordsOfAux, wordsOfAux]
    by_cases h : acc = []
    · subst h
      simp
    · rw [if_neg (by simpa [List.map_eq_nil_iff] using h), if_neg h]
      simp [List.map_reverse]
  | cons a rest ih =>
    intro acc
    have h0 := ih []
    simp only [List.map_nil] at h0
    simp only [List.map_cons]
    rw [wordsOfAux, wordsOfAux, isJsSpace_toUpper]
    cases hsp : isJsSpace a with
    | true =>
      simp only [if_true]
      by_cases h : acc = []
      · subst h
        simpa using h0
      · rw [if_neg (by simpa [List.map_eq_nil_iff] using h), if_neg h]
        rw [h0]
        simp [List.map_reverse]
    | false =>
      simp only [Bool.false_eq_true, if_false]
      rw [show (Char.toUpper a :: List.map Char.toUpper acc) =
        ((a :: acc).map Char.toUpper) from rfl]
      exact ih (a :: acc)

theorem wordsOf_map_toUpper (s : List Char) :
    wordsOf (s.map Char.toUpper) = (wordsOf s).map (List.map Char.toUpper) :=
  wordsOfAux_map_toUpper s []

theorem extractKeywords_map_toUpper (t : List Char) :
    extractKeywords (t.map Char.toUpper) = extractKeywords t := by
  rw [extractKeywords, extractKeywords, wordsOf_map_toUpper, List.map_map]
  have hcomp : ((fun w : List Char => w.map Char.toLower) ∘ List.map Char.toUpper) =
      (fun w : List Char => w.map Char.toLower) := by
    funext w
    simp only [Function.comp_apply, List.map_map]
    have hc : (Char.toLower ∘ Char.toUpper) = Char.toLower := funext toLower_toUpper
    rw [hc]
  rw [hcomp]

theorem sectionBody_map_toUpper (name content : List Char) :
    sectionBody name (content.map Char.toUpper) =
      (sectionBody name content).map (List.map Char.toUpper) := by
  rw [sectionBody, sectionBody, findHeader, findHeader, findHeaderAux_map_toUpper]
  cases hfh : findHeaderAux name content 0 with
  | none => rfl
  | some p =>
    obtain ⟨idx, len⟩ := p
    simp only [← List.map_drop, findNextHeader, findNextHeaderAux_map_toUpper]
    cases findNextHeaderAux ((content.drop idx).drop len) 0 with
    | none => simp
    | some n =>
      simp only [Option.map_some', Option.some.injEq]
      rw [List.map_take, List.map_drop]

theorem scoreBody_map_toUpper (body : List Char) (sec : Sec) :
    scoreBody (body.map Char.toUpper) sec = scoreBody body sec := by
  simp only [scoreBody, extractKeywords_map_toUpper, wordsOf_map_toUpper,
    List.length_map]

theorem evaluateSection_map_toUpper (content : List Char) (sec : Sec) :
    evaluateSection (content.map Char.toUpper) sec = evaluateSection content sec := by
  rw [evaluateSection, evaluateSection, sectionBody_map_toUpper]
  cases hb : sectionBody sec.name content with
  | none => rfl
  | some body =>
    simp only [Option.map_some']
    exact scoreBody_map_toUpper body sec

/-- C7: keyword matching (and the whole of `evaluateSection`) is
case-insensitive in the document: mapping the document text to upper case
leaves the section's score and `missingKeywords` list unchanged. -/
theorem evaluateSection_case_insensitive (content : List Char) (sec : Sec) :
    (evaluateSection (content.map Char.toUpper) sec).score =
        (evaluateSection content sec).score ∧
      (evaluateSection (content.map Char.toUpper) sec).missingKeywords =
        (evaluateSection content sec).missingKeywords := by
  rw [evaluateSection_map_toUpper]
  exact ⟨rfl, rfl⟩

/-! ## Concrete witnesses -/

theorem evaluateDocument_full_marks_witness :
    wRubric.sections ≠ [] ∧
      (∀ sec ∈ wRubric.sections, sectionMeets wDoc sec = true) ∧
      wRubric.overallMinWordCount ≤ countWords wDoc ∧
      (evaluateDocument wDoc wRubric).overallScore = 100 :=
  ⟨by decide, by decide, by decide,
    evaluateDocument_full_marks wDoc wRubric (by decide) (by decide) (by decide)⟩

theorem evaluateSection_score_formula_witness :
    0 < wIntroSec.requiredKeywords.length ∧
      ((∀ body, sectionBody wIntroSec.name "x".data = some body →
        (evaluateSection "x".data wIntroSec).score =
          (if wIntroSec.minWordCount ≤ countWords body then (1 : ℚ)/2 else 0) +
            1/2 * (((wIntroSec.requiredKeywords.filter
                (fun k => (extractKeywords body).contains (k.map Char.toLower))).length : ℚ) /
              (wIntroSec.requiredKeywords.length : ℚ))) ∧
      0 ≤ (evaluateSection "x".data wIntroSec).score ∧
        (evaluateSection "x".data wIntroSec).score ≤ 1) :=
  ⟨by decide, evaluateSection_score_formula "x".data wIntroSec (by decide)⟩

theorem evaluateSection_slicing_witness :
    matchHeaderAt wIntroSec.name (wTwoSecDoc.drop 0) = some 11 ∧
      (∃ idx len, findHeader wIntroSec.name wTwoSecDoc = some (idx, len) ∧
        matchHeaderAt wIntroSec.name (wTwoSecDoc.drop idx) = some len ∧
        (∀ j', j' < idx → matchHeaderAt wIntroSec.name (wTwoSecDoc.drop j') = none) ∧
        ((∃ n, findNextHeader ((wTwoSecDoc.drop idx).drop len) = some n ∧
            matchNextHeaderAt (((wTwoSecDoc.drop idx).drop len).drop n) = true ∧
            (∀ m, m < n →
              matchNextHeaderAt (((wTwoSecDoc.drop idx).drop len).drop m) = false) ∧
            evaluateSection wTwoSecDoc wIntroSec =
              scoreBody ((wTwoSecDoc.drop idx).take (n + len)) wIntroSec) ∨
          (findNextHeader ((wTwoSecDoc.drop idx).drop len) = none ∧
            (∀ m, matchNextHeaderAt (((wTwoSecDoc.drop idx).drop len).drop m) = false) ∧
            evaluateSection wTwoSecDoc wIntroSec =
              scoreBody (wTwoSecDoc.drop idx) wIntroSec))) :=
  ⟨by decide, evaluateSection_slicing wTwoSecDoc wIntroSec 0 11 (by decide)⟩

theorem evaluateSection_perfect_witness :
    0 < wFiveSec.requiredKeywords.length ∧
      sectionBody wFiveSec.name wDoc = some wDoc ∧
      countWords wDoc = wFiveSec.minWordCount ∧
      (∀ k ∈ wFiveSec.requiredKeywords, (k.map Char.toLower) ∈ extractKeywords wDoc) ∧
      (evaluateSection wDoc wFiveSec).score = 1 :=
  ⟨by decide, by decide, by decide, by decide,
    evaluateSection_perfect wDoc wFiveSec wDoc (by decide) (by decide) (by decide)
      (by decide)⟩

theorem evaluateSection_absent_witness :
    (∀ j, j ≤ ("hello".data).length →
      matchHeaderAt wIntroSec.name ("hello".data.drop j) = none) ∧
      (evaluateSection "hello".data wIntroSec).score = 0 ∧
      (evaluateSection "hello".data wIntroSec).missingKeywords =
        wIntroSec.requiredKeywords :=
  ⟨by decide, evaluateSection_absent "hello".data wIntroSec (by decide)⟩

theorem whitespace_keyword_never_found_witness :
    wConclusionSec ∈ projectOverviewType.sections ∧
      "next steps".data ∈ wConclusionSec.requiredKeywords ∧
      (∃ c ∈ "next steps".data, isJsSpace c = true) ∧
      ("next steps".data ∈ (evaluateSection "x".data wConclusionSec).missingKeywords ∧
        (1 - (((evaluateSection "x".data wConclusionSec).missingKeywords.length : ℚ) /
            (wConclusionSec.requiredKeywords.length : ℚ))) * (1/2) < 1/2) :=
  ⟨by decide, by decide, by decide,
    whitespace_keyword_never_found "x".data wConclusionSec "next steps".data
      (by decide) (by decide)⟩

theorem evaluateDocument_division_guard_witness :
    wRubric.sections ≠ [] ∧
      (0 ≤ (evaluateDocument "a".data wRubric).overallScore ∧
        (evaluateDocument "a".data wRubric).overallScore ≤ 100) :=
  ⟨by decide, (evaluateDocument_division_guard "a".data wRubric).1 (by decide)⟩

end DocEval
